import Mathlib

/-!
Verification development for the smart-summary summarization backend.

Texts are modelled as lists of characters (`Str`).  External capabilities
(the tiktoken encoder, the langchain splitter, the sumy extractive scorer
and the LLM generation capability) are modelled as explicit function
parameters; everything that the repository itself computes is translated
directly from the Python sources:

  * `app/services/token_manager.py`   (token counting, truncation, chunking)
  * `app/services/summarizer.py`      (sanitizing, target words, strategies)
  * `app/services/relevance_detector.py` (ranking, threshold filtering)
  * `app/services/extractive_analyzer.py` (heuristic fallback extraction)
  * `app/services/text_processor.py`  (whitespace preprocessing)

Rational numbers stand for Python floats; the concrete inputs used in the
theorems below are chosen so that the rational value and the IEEE double
value round identically.
-/

namespace SmartSummary

/-- Text is modelled as a list of characters. -/
abbrev Str := List Char

/-- Python whitespace characters recognised by `str.split`, `str.strip`
and the regex class used in the sources (ASCII part). -/
def isPySpace (c : Char) : Bool :=
  c = ' ' || c = '\t' || c = '\n' || c = '\r' ||
    c = Char.ofNat 11 || c = Char.ofNat 12

/-- Worker for `pyWords`: accumulates the current word (reversed). -/
def wordsGo (cur : Str) : Str → List Str
  | [] => if cur.isEmpty then [] else [cur.reverse]
  | c :: rest =>
    if isPySpace c then
      if cur.isEmpty then wordsGo [] rest else cur.reverse :: wordsGo [] rest
    else
      wordsGo (c :: cur) rest

/-- Python `text.split()`: split on whitespace runs, dropping empty parts. -/
def pyWords (text : Str) : List Str := wordsGo [] text

/-- SummarizerService._count_words: `len(text.split())`. -/
def count_words (text : Str) : Nat := (pyWords text).length

/-- Worker for `collapseWs`; the flag records whether the previous character
was whitespace (already replaced by a single space). -/
def collapseGo (prevSpace : Bool) : Str → Str
  | [] => []
  | c :: rest =>
    if isPySpace c then
      if prevSpace then collapseGo true rest else ' ' :: collapseGo true rest
    else
      c :: collapseGo false rest

/-- Python `re.sub(r"\s+", " ", text)`: collapse whitespace runs to a single
space (used by TextProcessor.preprocess and ExtractiveAnalyzer._clean_text). -/
def collapseWs (text : Str) : Str := collapseGo false text

/-- Python `str.strip()`. -/
def pyStrip (text : Str) : Str :=
  ((text.dropWhile isPySpace).reverse.dropWhile isPySpace).reverse

/-- Boolean test that `pat` occurs at the head of `s`. -/
def leadsWith : Str → Str → Bool
  | [], _ => true
  | _ :: _, [] => false
  | a :: as, b :: bs => a == b && leadsWith as bs

/-- Python substring containment `pat in s`. -/
def occursIn (pat : Str) : Str → Bool
  | [] => leadsWith pat []
  | c :: rest => leadsWith pat (c :: rest) || occursIn pat rest

/-- Python `int()` applied to a float value, modelled on rationals:
truncation toward zero. -/
def pyInt (q : ℚ) : ℤ := if 0 ≤ q then ⌊q⌋ else -⌊-q⌋

/-! ## TokenManager (app/services/token_manager.py)

The tiktoken encoder is an external dependency; it enters as an explicit
`count : Str → Nat` (for `truncate_to_limit`, standing for
`self.count_tokens`) or `encode`/`decode` pair (for `chunk_by_tokens`).
-/

/-- TokenManager.TOKEN_LIMIT: all Claude models support 200K tokens. -/
def TOKEN_LIMIT : Nat := 200000

/-- TokenManager.safe_max_tokens = int(max_tokens * 0.9). -/
def safe_max_tokens : Nat := 180000

/-- TokenManager.count_tokens: 0 for empty text, else the length of the
encoded token sequence (the estimation fallback on encoder exceptions is
outside the model; exceptions are not modelled). -/
def count_tokens (encode : Str → List Nat) (text : Str) : Nat :=
  if text.isEmpty then 0 else (encode text).length

/-- The truncation notice appended by `truncate_to_limit`. -/
def truncMarker : Str := "[... texto truncado ...]".toList

/-- Suffix added in the keep-beginning branch: `f"{result}\n\n[marker]"`. -/
def truncSuffix : Str := "\n\n".toList ++ truncMarker

/-- Notice prepended in the keep-end branch: `f"[marker]\n\n{result}"`. -/
def truncNotice : Str := truncMarker ++ "\n\n".toList

/-- Binary search of the keep-beginning branch of `truncate_to_limit`.
The Python `while left < right` loop is modelled with an explicit fuel;
each iteration shrinks `right - left`, so `text.length + 1` units of fuel
always suffice (proved in the loop lemma below).  The locals
`mid = (left + right + 1) // 2` and `candidate = text[:mid]` are inlined. -/
def bsearchBegin (count : Str → Nat) (text : Str) (target : Nat) :
    Nat → Nat → Nat → Str → Str
  | 0, _, _, result => result
  | fuel + 1, left, right, result =>
    if left < right then
      if count (text.take ((left + right + 1) / 2)) ≤ target then
        bsearchBegin count text target fuel ((left + right + 1) / 2) right
          (text.take ((left + right + 1) / 2))
      else
        bsearchBegin count text target fuel left ((left + right + 1) / 2 - 1) result
    else result

/-- Binary search of the keep-end (`preserve_end=True`) branch, with
`mid = (left + right) // 2` and `candidate = text[mid:]` inlined. -/
def bsearchEnd (count : Str → Nat) (text : Str) (target : Nat) :
    Nat → Nat → Nat → Str → Str
  | 0, _, _, result => result
  | fuel + 1, left, right, result =>
    if left < right then
      if count (text.drop ((left + right) / 2)) ≤ target then
        bsearchEnd count text target fuel left ((left + right) / 2)
          (text.drop ((left + right) / 2))
      else
        bsearchEnd count text target fuel ((left + right) / 2 + 1) right result
    else result

/-- Resolution of `target_tokens = max_tokens or self.safe_max_tokens`:
`maxTokens = none` models the Python default `None`; a passed value of `0`
is falsy in Python, hence also resolves to `safe_max_tokens`. -/
def resolveTarget : Option Nat → Nat
  | some m => if m = 0 then safe_max_tokens else m
  | none => safe_max_tokens

/-- TokenManager.truncate_to_limit. -/
def truncate_to_limit (count : Str → Nat) (text : Str)
    (maxTokens : Option Nat) (preserveEnd : Bool) : Str :=
  if text.isEmpty then text
  else
    let target := resolveTarget maxTokens
    if count text ≤ target then text
    else if preserveEnd then
      truncNotice ++ bsearchEnd count text target (text.length + 1) 0 text.length text
    else
      bsearchBegin count text target (text.length + 1) 0 text.length text ++ truncSuffix

/-- Error raised by `chunk_by_tokens` (a ValueError carrying the character
count of the offending text). -/
inductive TMError where
  | tooLarge (chars : Nat)
deriving DecidableEq, Repr

/-- The `while start < total_tokens` loop of `chunk_by_tokens`.  The Python
loop carries an explicit iteration budget (`max_iterations`) and breaks
once it is exhausted, which the fuel argument models exactly. -/
def chunkLoop (decode : List Nat → Str) (tokens : List Nat)
    (total chunkSize overlap : Nat) : Nat → Nat → List Str
  | fuel, start =>
    if start < total then
      match fuel with
      | 0 => []
      | fuel + 1 =>
        let e := min (start + chunkSize) total
        let chunk := decode ((tokens.drop start).take (e - start))
        if total ≤ e then [chunk]
        else
          let start2 := e - overlap
          let start3 := if start2 + chunkSize ≤ e then e - overlap / 2 else start2
          chunk :: chunkLoop decode tokens total chunkSize overlap fuel start3
    else []

/-- TokenManager.chunk_by_tokens.  The 200,000-character hard gate is
checked before the text is ever encoded. -/
def chunk_by_tokens (encode : Str → List Nat) (decode : List Nat → Str)
    (text : Str) (chunkSize overlap : Nat) : Except TMError (List Str) :=
  if text.isEmpty then .ok []
  else if 200000 < text.length then .error (.tooLarge text.length)
  else
    let tokens := encode text
    let total := tokens.length
    if total ≤ chunkSize then .ok [text]
    else
      let ov := if chunkSize ≤ overlap then chunkSize / 2 else overlap
      let maxIter := total / (chunkSize - ov) + 5
      .ok (chunkLoop decode tokens total chunkSize ov maxIter 0)

/-! ## ExtractiveAnalyzer (app/services/extractive_analyzer.py)

Only the deterministic heuristic fallback (`_fallback_extraction`) is
in-repository logic; the primary sumy algorithms are external.
-/

/-- Sentence terminators of the lookbehind in `re.split(r"(?<=[.!?])\s+", text)`. -/
def isSentTerm (c : Char) : Bool := c = '.' || c = '!' || c = '?'

mutual

/-- Worker for the regex split: `acc` holds the current sentence reversed;
a whitespace character directly after a terminator starts a delimiter run. -/
def sentGo (acc : Str) : Str → List Str
  | [] => [acc.reverse]
  | c :: rest =>
    if isPySpace c && isSentTerm (acc.head?.getD ' ') then
      acc.reverse :: sentSkip rest
    else
      sentGo (c :: acc) rest

/-- Worker consuming the rest of a maximal whitespace delimiter run. -/
def sentSkip : Str → List Str
  | [] => [[]]
  | c :: rest => if isPySpace c then sentSkip rest else sentGo [c] rest

end

/-- Python `re.split(r"(?<=[.!?])\s+", text)`. -/
def sentSplit (text : Str) : List Str := sentGo [] text

/-- The sentence list of `_fallback_extraction`:
`[s.strip() for s in re.split(...) if s.strip()]`. -/
def fallbackSentences (text : Str) : List Str :=
  ((sentSplit text).map pyStrip).filter (fun s => ¬ s.isEmpty)

/-- Stable insertion into a descending-sorted list: the new element goes
before the first strictly-smaller key, i.e. after equal keys, matching the
stability of Python `list.sort(reverse=True)`. -/
def insertDescBy (key : α → ℚ) (x : α) : List α → List α
  | [] => [x]
  | y :: ys => if key x < key y then y :: insertDescBy key x ys else x :: y :: ys

/-- Stable descending sort by a rational key (Python stable sort with
`reverse=True`). -/
def sortDescBy (key : α → ℚ) : List α → List α
  | [] => []
  | x :: xs => insertDescBy key x (sortDescBy key xs)

/-- The length-preference score of `_fallback_extraction`
(peaking at 10-30 words). -/
def fallbackLengthScore (wordCount : Nat) : ℚ :=
  if wordCount < 30 then min ((wordCount : ℚ) / 30) 1
  else max (1 - ((wordCount : ℚ) - 30) / 50) (1 / 2)

/-- The position-preference score of `_fallback_extraction`
(slight bias toward earlier sentences). -/
def fallbackPositionScore (i total : Nat) : ℚ :=
  1 - ((i : ℚ) / (total : ℚ)) * (3 / 10)

/-- ExtractiveAnalyzer._fallback_extraction: heuristic sentence extraction
used when the sumy algorithms are unavailable. -/
def fallback_extraction (text : Str) (count : Nat) : List Str :=
  let sentences := fallbackSentences text
  if sentences.length ≤ count then sentences
  else
    let scored := sentences.enum.map fun p =>
      (fallbackLengthScore (pyWords p.2).length * fallbackPositionScore p.1 sentences.length,
        p.2)
    ((sortDescBy (fun q => q.1) scored).take count).map fun q => q.2

/-! ## RelevanceDetector (app/services/relevance_detector.py)

The per-chunk sentence scores come from
`self.analyzer.analyze_content_importance(chunk, num_sections=5)` (sumy,
external); they enter as `analysis : Str → List ℚ`, the list of scores of
that call.  The averaging, ranking and filtering below are repository code.
-/

/-- Chunk importance in `rank_chunks_by_importance`: the mean of the
analysis scores, or 0.0 when the analysis is empty. -/
def chunkScore (analysis : Str → List ℚ) (chunk : Str) : ℚ :=
  let a := analysis chunk
  if a.isEmpty then 0 else a.sum / (a.length : ℚ)

/-- RelevanceDetector.rank_chunks_by_importance (with `top_k=None`):
triples `(original_index, chunk, importance_score)` sorted by score
descending with a stable sort. -/
def rank_chunks_by_importance (analysis : Str → List ℚ) (chunks : List Str) :
    List (Nat × Str × ℚ) :=
  sortDescBy (fun t => t.2.2)
    (chunks.enum.map fun p => (p.1, p.2, chunkScore analysis p.2))

/-- RelevanceDetector.filter_by_threshold. -/
def filter_by_threshold (analysis : Str → List ℚ) (chunks : List Str)
    (threshold : ℚ) : List Str :=
  match rank_chunks_by_importance analysis chunks with
  | [] => chunks
  | r :: rs =>
    let maxScore := (rs.map fun t => t.2.2).foldl max r.2.2
    if maxScore = 0 then chunks
    else
      let filtered := (((r :: rs).filter fun t => threshold ≤ t.2.2 / maxScore).map
        fun t => t.2.1)
      if filtered.isEmpty then [r.2.1] else filtered

/-! ## SummarizerService (app/services/summarizer.py)

Configuration values are the defaults of `app/core/config.py`:
`HIERARCHICAL_CHUNK_SIZE = DETAILED_CHUNK_SIZE = 100000`,
`CHUNK_OVERLAP = 1000`, `USE_RELEVANCE_FILTERING = True`,
`PRIORITY_CHUNK_RATIO = 0.7`, `EXTRACTIVE_SENTENCES_PER_CHUNK = 10`.
-/

/-- The structural-injection denylist of `_sanitize_input`. -/
def specialTokens : List Str :=
  ["<|im_start|>".toList, "<|im_end|>".toList, "<|system|>".toList,
    "<|user|>".toList, "<|assistant|>".toList]

/-- ASCII single quote, used in the ValueError message. -/
def squote : Char := Char.ofNat 39

/-- The ValueError message raised by `_sanitize_input` for a given token. -/
def sanitizeErrMsg (tok : Str) : Str :=
  "Input contains special token ".toList ++ [squote] ++ tok ++ [squote] ++
    " which is not allowed. Please provide only plain text to be summarized.".toList

/-- SummarizerService._sanitize_input: raise for the first denylisted token
contained (case-insensitively) in the text, otherwise return it unchanged.
The tokens are lower-case ASCII, so `token.lower() in text.lower()` is the
character-wise lower-case containment test modelled here. -/
def sanitize_input (text : Str) : Except Str Str :=
  match specialTokens.find? (fun tok => occursIn tok (text.map Char.toLower)) with
  | some tok => .error (sanitizeErrMsg tok)
  | none => .ok text

/-- SummarizerService._calculate_target_words:
`max(50, int(input_word_count * compression_ratio))`. -/
def calculate_target_words (compressionRatio : ℚ) (text : Str) : Nat :=
  max 50 (pyInt ((count_words text : ℚ) * compressionRatio)).toNat

/-- Modelled from the spec: the formula the specification states for the
target word count, `max(50, round(W * r))`, for comparison with the code. -/
def target_words_spec (compressionRatio : ℚ) (wordCount : Nat) : Nat :=
  max 50 (round ((wordCount : ℚ) * compressionRatio)).toNat

/-- One prompt sent to the generation capability.  Each constructor stands
for one of the four literal f-string templates of summarizer.py, carrying
the interpolated data (prompt scaffolding text is fixed and omitted). -/
inductive Prompt where
  /-- `_simple_summarization` prompt, carrying `text[:10000]`. -/
  | simple (content : Str)
  /-- per-chunk map prompt of `_summarize_chunks_parallel`, carrying the
  global chunk position (`Section {index+1}`) and the chunk text. -/
  | chunkMap (index : Nat) (content : Str)
  /-- reduce prompt of `_hierarchical_summarization`, carrying the chunk
  summaries joined with blank lines. -/
  | combine (content : Str)
  /-- reduce prompt of `_detailed_summarization`, carrying the extracted
  key content. -/
  | detailedReduce (content : Str)
deriving DecidableEq, Repr

/-- One generation call: the prompt and the target word count embedded in
the accompanying system message (`_get_system_message`). -/
abbrev GenCall := Prompt × Nat

/-- The external collaborators of the pipeline. -/
structure Env where
  /-- langchain RecursiveCharacterTextSplitter.split_text for given
  (chunk_size, chunk_overlap). -/
  split : Nat → Nat → Str → List Str
  /-- scores of `analyzer.analyze_content_importance(chunk, num_sections=5)`. -/
  analysis : Str → List ℚ
  /-- `extractive_analyzer.extract_sentences(chunk, sentence_count)`. -/
  extract : Str → Nat → List Str
  /-- joined output of `llm_service.generate_stream(prompt, system)`. -/
  llm : GenCall → Str
  /-- `token_manager.count_tokens` (tiktoken-backed). -/
  count : Str → Nat

/-- TextProcessor.split_into_chunks with explicit size and overlap (as the
summarizer calls it): clamp the overlap, preprocess, then split. -/
def split_into_chunks (split : Nat → Nat → Str → List Str)
    (text : Str) (maxSize overlap : Nat) : List Str :=
  let ov := if maxSize ≤ overlap then maxSize / 2 else overlap
  split maxSize ov (pyStrip (collapseWs text))

/-- The `_simple_summarization` trace: one generation call on `text[:10000]`. -/
def simpleCalls (text : Str) (targetWords : Nat) : List GenCall :=
  [(Prompt.simple (text.take 10000), targetWords)]

/-- The priority count of `_hierarchical_summarization`:
`max(2, int(len(chunks) * PRIORITY_CHUNK_RATIO))`. -/
def priorityCount (numChunks : Nat) : Nat :=
  max 2 (pyInt ((numChunks : ℚ) * (7 / 10))).toNat

/-- The chunk selection of `_hierarchical_summarization`: with relevance
filtering enabled and more than 3 chunks, keep the top `priorityCount`
ranked chunks in ranked (score-descending) order; otherwise keep all
chunks in original order. -/
def hierChunksToProcess (analysis : Str → List ℚ) (chunks : List Str) :
    List Str :=
  if 3 < chunks.length then
    ((rank_chunks_by_importance analysis chunks).take
      (priorityCount chunks.length)).map fun t => t.2.1
  else chunks

/-- The original indices of the chunks selected by
`hierChunksToProcess`, in processing order (the unfiltered branch
processes all chunks in original order `0, 1, ...`). -/
def hierSelectedIndices (analysis : Str → List ℚ) (chunks : List Str) :
    List Nat :=
  if 3 < chunks.length then
    ((rank_chunks_by_importance analysis chunks).take
      (priorityCount chunks.length)).map fun t => t.1
  else List.range chunks.length

/-- The map-phase calls of `_summarize_chunks_parallel`: one `chunkMap`
call per selected chunk, indexed by global position; `asyncio.gather`
returns batch results in task order, so the trace is the enumeration. -/
def mapChunkCalls (toProcess : List Str) (wordsPerChunk : Nat) : List GenCall :=
  toProcess.enum.map fun p => (Prompt.chunkMap p.1 p.2, wordsPerChunk)

/-- The chunk summaries returned by `_summarize_chunks_parallel`, in the
order of `chunks_to_process`. -/
def chunkSummaries (env : Env) (toProcess : List Str) (wordsPerChunk : Nat) :
    List Str :=
  toProcess.enum.map fun p => env.llm (Prompt.chunkMap p.1 p.2, wordsPerChunk)

/-- The generation-call trace of `_hierarchical_summarization`. -/
def hierarchicalCalls (env : Env) (text : Str) (targetWords : Nat) :
    List GenCall :=
  if text.length < 100000 then simpleCalls text targetWords
  else
    let chunks := split_into_chunks env.split text 100000 1000
    let toProcess := hierChunksToProcess env.analysis chunks
    let wordsPerChunk := max 50 (targetWords / toProcess.length)
    let summaries := chunkSummaries env toProcess wordsPerChunk
    mapChunkCalls toProcess wordsPerChunk ++
      (if 1 < summaries.length then
        [(Prompt.combine (List.intercalate "\n\n".toList summaries), targetWords)]
      else [])

/-- SummarizerService._map_extract_sentences: per chunk, the extracted
sentences preceded by a `Section {i+1}:` label and followed by an empty
separator line; chunks with no extracted sentences contribute nothing. -/
def mapExtractSentences (env : Env) (chunks : List Str) : List Str :=
  (chunks.enum.map fun p =>
    let sentences := env.extract p.2 10
    if sentences.isEmpty then []
    else ("Section ".toList ++ (Nat.repr (p.1 + 1)).toList ++ ":".toList) ::
      (sentences ++ [[]])).flatten

/-- The generation-call trace of `_detailed_summarization`: the map phase
is purely extractive, so exactly one generation call (the reduce) occurs. -/
def detailedCalls (env : Env) (text : Str) (targetWords : Nat) : List GenCall :=
  let chunks := split_into_chunks env.split text 100000 1000
  let content := List.intercalate "\n".toList (mapExtractSentences env chunks)
  [(Prompt.detailedReduce content, targetWords)]

/-- SummarizerService.summarize_stream, modelled as the sequence of
generation calls it issues (`Except.error` = the ValueError of the
sanitizer escaping before any generation call). -/
def summarize_stream (env : Env) (strategy : Str) (compressionRatio : ℚ)
    (text : Str) : Except Str (List GenCall) :=
  match sanitize_input text with
  | .error e => .error e
  | .ok t =>
    let t2 := if safe_max_tokens < env.count t
      then truncate_to_limit env.count t none false else t
    let targetWords := calculate_target_words compressionRatio t2
    .ok (if strategy = "simple".toList then simpleCalls t2 targetWords
      else if strategy = "hierarchical".toList then hierarchicalCalls env t2 targetWords
      else if strategy = "detailed".toList then detailedCalls env t2 targetWords
      else hierarchicalCalls env t2 targetWords)

/-! ## Helper lemmas -/

theorem insertDescBy_perm (key : α → ℚ) (x : α) (l : List α) :
    (insertDescBy key x l).Perm (x :: l) := by
  induction l with
  | nil => simp [insertDescBy]
  | cons y ys ih =>
    by_cases h : key x < key y
    · simp only [insertDescBy, if_pos h]
      exact (ih.cons y).trans (List.Perm.swap x y ys)
    · simp [insertDescBy, if_neg h]

theorem sortDescBy_perm (key : α → ℚ) (l : List α) :
    (sortDescBy key l).Perm l := by
  induction l with
  | nil => simp [sortDescBy]
  | cons x xs ih =>
    exact ((insertDescBy_perm key x (sortDescBy key xs)).trans (ih.cons x))

theorem sortDescBy_length (key : α → ℚ) (l : List α) :
    (sortDescBy key l).length = l.length :=
  (sortDescBy_perm key l).length_eq

theorem insertDescBy_sorted (key : α → ℚ) (x : α) {l : List α}
    (h : List.Sorted (fun a b => key b ≤ key a) l) :
    List.Sorted (fun a b => key b ≤ key a) (insertDescBy key x l) := by
  induction l with
  | nil => simp [insertDescBy]
  | cons y ys ih =>
    rw [List.sorted_cons] at h
    by_cases hxy : key x < key y
    · simp only [insertDescBy, if_pos hxy]
      rw [List.sorted_cons]
      refine ⟨?_, ih h.2⟩
      intro b hb
      rcases List.mem_cons.mp ((insertDescBy_perm key x ys).mem_iff.mp hb) with hb | hb
      · exact hb ▸ le_of_lt hxy
      · exact h.1 b hb
    · simp only [insertDescBy, if_neg hxy]
      push_neg at hxy
      rw [List.sorted_cons]
      refine ⟨?_, List.sorted_cons.mpr h⟩
      intro b hb
      rcases List.mem_cons.mp hb with hb | hb
      · exact hb ▸ hxy
      · exact (h.1 b hb).trans hxy

theorem sortDescBy_sorted (key : α → ℚ) (l : List α) :
    List.Sorted (fun a b => key b ≤ key a) (sortDescBy key l) := by
  induction l with
  | nil => simp [sortDescBy]
  | cons x xs ih => exact insertDescBy_sorted key x ih

theorem le_foldl_max (a : ℚ) (l : List ℚ) : a ≤ l.foldl max a := by
  induction l generalizing a with
  | nil => exact le_refl a
  | cons x xs ih =>
    rw [List.foldl_cons]
    exact le_trans (le_max_left a x) (ih (max a x))

theorem mem_le_foldl_max {x : ℚ} (a : ℚ) (l : List ℚ) :
    x ∈ l → x ≤ l.foldl max a := by
  induction l generalizing a with
  | nil => intro hx; cases hx
  | cons y ys ih =>
    intro hx
    rw [List.foldl_cons]
    rcases List.mem_cons.mp hx with rfl | h
    · exact le_trans (le_max_right a x) (le_foldl_max (max a x) ys)
    · exact ih (max a y) h

theorem foldl_max_le {c : ℚ} (a : ℚ) (l : List ℚ) :
    a ≤ c → (∀ x ∈ l, x ≤ c) → l.foldl max a ≤ c := by
  induction l generalizing a with
  | nil => intro ha _; exact ha
  | cons y ys ih =>
    intro ha h
    rw [List.foldl_cons]
    exact ih (max a y) (max_le ha (h y (List.mem_cons_self y ys)))
      fun x hx => h x (List.mem_cons_of_mem y hx)

/-! ## Claim C9 -/

/-- C9: for every text and requested count, the heuristic fallback
extractor returns exactly `min(count, total)` sentences, where `total` is
the number of sentences the splitter finds in the text. -/
theorem fallback_extraction_length (text : Str) (count : Nat) :
    (fallback_extraction text count).length =
      min count (fallbackSentences text).length := by
  unfold fallback_extraction
  by_cases h : (fallbackSentences text).length ≤ count
  · rw [if_pos h]
    omega
  · rw [if_neg h]
    rw [List.length_map, List.length_take, sortDescBy_length, List.length_map,
      List.enum_length]

/-! ## Claim C2 -/

/-- A 505-character text consisting of 253 single-letter words. -/
def wordsText253 : Str :=
  List.intercalate " ".toList (List.replicate 253 "a".toList)

set_option maxRecDepth 100000 in
/-- C2 counterexample: for 253 words at ratio 0.2 the code computes
`max(50, int(253 * 0.2)) = max(50, 50) = 50`, while the claimed formula
`max(50, round(253 * 0.2)) = max(50, 51) = 51` differs: Python `int()`
truncates, it does not round (253 * 0.2 = 50.6). -/
theorem target_words_round_counterexample :
    count_words wordsText253 = 253 ∧
    calculate_target_words (1 / 5) wordsText253 = 50 ∧
    target_words_spec (1 / 5) (count_words wordsText253) = 51 := by
  have hw : count_words wordsText253 = 253 := by decide
  refine ⟨hw, ?_, ?_⟩
  · unfold calculate_target_words pyInt
    rw [hw, if_pos (by norm_num : (0 : ℚ) ≤ ((253 : Nat) : ℚ) * (1 / 5))]
    norm_num
  · unfold target_words_spec
    rw [hw]
    norm_num [round_eq]
    rfl

/-- C2 amended: the target word count equals `max(50, floor(W * r))` (the
Python `int()` truncation of the product), not `max(50, round(W * r))`. -/
theorem target_words_floor (ratio : ℚ) (text : Str) (h : 0 ≤ ratio) :
    calculate_target_words ratio text =
      max 50 (Int.toNat ⌊(count_words text : ℚ) * ratio⌋) := by
  unfold calculate_target_words pyInt
  rw [if_pos (mul_nonneg (Nat.cast_nonneg _) h)]

/-- Witness for `target_words_floor` at ratio 0.2 and a concrete text. -/
theorem target_words_floor_witness :
    calculate_target_words (1 / 5) wordsText253 =
      max 50 (Int.toNat ⌊(count_words wordsText253 : ℚ) * (1 / 5)⌋) :=
  target_words_floor (1 / 5) wordsText253 (by norm_num)

/-! ## Claim C7 -/

/-- C7: `chunk_by_tokens` refuses texts above the fixed 200,000-character
ceiling with a `ValueError` (the `ResourceLimitExceeded` of the spec)
whose result does not depend on the encoder - the gate fires before the
text is encoded - while texts at or below the ceiling are chunked
normally (no error) at the default chunk size and overlap. -/
theorem chunk_by_tokens_ceiling (encode encode2 : Str → List Nat)
    (decode decode2 : List Nat → Str) (text : Str) (chunkSize overlap : Nat) :
    (200000 < text.length →
      chunk_by_tokens encode decode text chunkSize overlap =
        .error (.tooLarge text.length) ∧
      chunk_by_tokens encode decode text chunkSize overlap =
        chunk_by_tokens encode2 decode2 text chunkSize overlap) ∧
    (text.length ≤ 200000 →
      ∃ chunks, chunk_by_tokens encode decode text 50000 500 = .ok chunks) := by
  constructor
  · intro h
    have hne : ¬ text.isEmpty := by
      cases text
      · simp at h
      · simp
    have key : ∀ (e : Str → List Nat) (d : List Nat → Str),
        chunk_by_tokens e d text chunkSize overlap = .error (.tooLarge text.length) := by
      intro e d
      unfold chunk_by_tokens
      rw [if_neg hne, if_pos h]
    exact ⟨key encode decode, (key encode decode).trans (key encode2 decode2).symm⟩
  · intro h
    unfold chunk_by_tokens
    by_cases he : text.isEmpty
    · rw [if_pos he]; exact ⟨[], rfl⟩
    · rw [if_neg he, if_neg (by omega)]
      by_cases ht : (encode text).length ≤ 50000
      · rw [if_pos ht]; exact ⟨[text], rfl⟩
      · rw [if_neg ht]; exact ⟨_, rfl⟩

/-- Witness for `chunk_by_tokens_ceiling`: a 200,001-character text is
refused, a short text is chunked. -/
theorem chunk_by_tokens_ceiling_witness :
    chunk_by_tokens (fun t => t.map Char.toNat) (fun _ => [])
      (List.replicate 200001 'a') 50000 500 =
        .error (.tooLarge 200001) ∧
    ∃ chunks, chunk_by_tokens (fun t => t.map Char.toNat) (fun _ => [])
      "hello".toList 50000 500 = .ok chunks := by
  have hlen : (List.replicate 200001 'a').length = 200001 :=
    List.length_replicate _ _
  constructor
  · have h := (chunk_by_tokens_ceiling (fun t => t.map Char.toNat)
      (fun t => t.map Char.toNat) (fun _ => []) (fun _ => [])
      (List.replicate 200001 'a') 50000 500).1 (by rw [hlen]; norm_num)
    rw [hlen] at h
    exact h.1
  · exact (chunk_by_tokens_ceiling (fun t => t.map Char.toNat)
      (fun t => t.map Char.toNat) (fun _ => []) (fun _ => [])
      "hello".toList 50000 500).2 (by decide)

/-! ## Claims C1 and C8: truncation -/

/-- Loop invariant proof for the keep-beginning binary search: under a
prefix-monotone token counter, if the first character alone fits the
budget, the loop returns the longest prefix that fits. -/
theorem bsearchBegin_spec (count : Str → Nat) (text : Str) (target : Nat)
    (hmono : ∀ i j, i ≤ j → count (text.take i) ≤ count (text.take j)) :
    ∀ fuel l r res,
      l ≤ r → r ≤ text.length → r - l < fuel →
      (∀ k, k ≤ text.length → r < k → target < count (text.take k)) →
      ((1 ≤ l ∧ count (text.take l) ≤ target ∧ res = text.take l) ∨
        (l = 0 ∧ count (text.take 1) ≤ target ∧ 1 ≤ r)) →
      ∃ m, 1 ≤ m ∧ m ≤ text.length ∧
        bsearchBegin count text target fuel l r res = text.take m ∧
        count (text.take m) ≤ target ∧
        ∀ k, k ≤ text.length → m < k → target < count (text.take k) := by
  intro fuel
  induction fuel with
  | zero =>
    intro l r res hlr _ hfuel _ _
    omega
  | succ f ih =>
    intro l r res hlr hrlen hfuel hexcl hinv
    by_cases hlt : l < r
    · rw [bsearchBegin, if_pos hlt]
      have hmidl : l < (l + r + 1) / 2 := by omega
      have hmidr : (l + r + 1) / 2 ≤ r := by omega
      by_cases hc : count (text.take ((l + r + 1) / 2)) ≤ target
      · rw [if_pos hc]
        exact ih ((l + r + 1) / 2) r _ hmidr hrlen (by omega) hexcl
          (Or.inl ⟨by omega, hc, rfl⟩)
      · rw [if_neg hc]
        apply ih l ((l + r + 1) / 2 - 1) res (by omega) (by omega) (by omega)
        · intro k hk hgt
          by_cases hkr : r < k
          · exact hexcl k hk hkr
          · have hmk : (l + r + 1) / 2 ≤ k := by omega
            have := hmono ((l + r + 1) / 2) k hmk
            omega
        · rcases hinv with ⟨h1, h2, h3⟩ | ⟨h0, h1le, _⟩
          · exact Or.inl ⟨h1, h2, h3⟩
          · refine Or.inr ⟨h0, h1le, ?_⟩
            have : (l + r + 1) / 2 ≠ 1 := by
              intro h12
              rw [h12] at hc
              exact hc h1le
            omega
    · rw [bsearchBegin, if_neg hlt]
      have hlr2 : l = r := by omega
      rcases hinv with ⟨h1, h2, h3⟩ | ⟨h0, _, hr1⟩
      · refine ⟨l, h1, by omega, h3, h2, ?_⟩
        intro k hk hgt
        exact hexcl k hk (by omega)
      · omega

/-- C1 counterexample (the tokenizer is instantiated with the
character-count tokenizer, which is monotone and assigns 0 to the empty
text, as the spec requires of any substituted tokenizer): for the 5-token
text `aaaaa` and limit 3, the binary search keeps the 3-token prefix
`aaa`, but the appended truncation marker brings the result to 29 tokens,
violating `count(truncate(text, N)) <= N`. -/
theorem truncate_marker_exceeds_budget :
    truncate_to_limit List.length "aaaaa".toList (some 3) false =
      ("aaa".toList ++ truncSuffix) ∧
    ¬ List.length (truncate_to_limit List.length "aaaaa".toList (some 3) false) ≤ 3 := by
  constructor
  · decide
  · decide

/-- C1 amended: truncation is the identity below the limit; above the
limit the kept prefix alone fits the token budget (provided the first
character alone fits it), and the truncation marker is appended on top of
that budget, so the total may exceed N by the marker cost. -/
theorem truncate_token_safety_amended (count : Str → Nat) (text : Str) (N : Nat)
    (hmono : ∀ i j, i ≤ j → count (text.take i) ≤ count (text.take j))
    (hN : 0 < N) :
    (count text ≤ N → truncate_to_limit count text (some N) false = text) ∧
    (N < count text → count (text.take 1) ≤ N →
      ∃ m, truncate_to_limit count text (some N) false =
          text.take m ++ truncSuffix ∧
        count (text.take m) ≤ N) := by
  have htarget : resolveTarget (some N) = N := by
    show (if N = 0 then safe_max_tokens else N) = N
    rw [if_neg (by omega)]
  constructor
  · intro h
    unfold truncate_to_limit
    by_cases he : text.isEmpty
    · rw [if_pos he]
    · rw [if_neg he]
      simp only [htarget]
      rw [if_pos h]
  · intro h h1
    have hne : ¬ text.isEmpty := by
      intro he
      rw [List.isEmpty_iff] at he
      rw [he] at h h1
      simp only [List.take_nil] at h1
      rw [he] at hmono
      omega
    have hlen1 : 1 ≤ text.length := by
      cases text
      · simp at hne
      · simp
    unfold truncate_to_limit
    rw [if_neg hne]
    simp only [htarget]
    rw [if_neg (by omega), if_neg (by simp)]
    obtain ⟨m, _, _, heq, hle, _⟩ :=
      bsearchBegin_spec count text N hmono (text.length + 1) 0 text.length text
        (by omega) (le_refl _) (by omega)
        (fun k hk hgt => absurd hk (by omega))
        (Or.inr ⟨rfl, h1, hlen1⟩)
    exact ⟨m, by rw [heq], hle⟩

/-- Witness for `truncate_token_safety_amended`: identity below the limit
and marker-overflow shape above it, at the character-count tokenizer. -/
theorem truncate_token_safety_amended_witness :
    truncate_to_limit List.length "aaaaa".toList (some 5) false = "aaaaa".toList ∧
    ∃ m, truncate_to_limit List.length "aaaaa".toList (some 3) false =
        ("aaaaa".toList).take m ++ truncSuffix ∧
      List.length (("aaaaa".toList).take m) ≤ 3 := by
  constructor
  · exact (truncate_token_safety_amended List.length "aaaaa".toList 5
      (fun i j hij => by simp only [List.length_take]; omega)
      (by omega)).1 (by decide)
  · exact (truncate_token_safety_amended List.length "aaaaa".toList 3
      (fun i j hij => by simp only [List.length_take]; omega)
      (by omega)).2 (by decide) (by decide)

/-- C8 counterexample (tokenizer instantiated with a monotone tokenizer
costing two tokens per character, as a multi-token character does under a
BPE encoding): for text `ab` and limit 1 no non-empty prefix fits, the
binary search never updates its result, and the code returns the full
text plus marker - not the longest valid prefix (the empty one). -/
theorem truncate_prefix_not_longest_counterexample :
    truncate_to_limit (fun l => 2 * l.length) "ab".toList (some 1) false =
      ("ab".toList ++ truncSuffix) ∧
    ∀ m, m ≤ ("ab".toList).length →
      ¬ (truncate_to_limit (fun l => 2 * l.length) "ab".toList (some 1) false =
          ("ab".toList).take m ++ truncSuffix ∧
        2 * (("ab".toList).take m).length ≤ 1) := by
  constructor
  · decide
  · decide

/-- C8 amended: when the token count exceeds N and the first character
alone fits the budget, `truncate` with `preserveEnd = false` keeps exactly
the longest character prefix whose token count is at most N (no strictly
longer prefix fits), then appends the truncation marker. -/
theorem truncate_longest_prefix_amended (count : Str → Nat) (text : Str) (N : Nat)
    (hmono : ∀ i j, i ≤ j → count (text.take i) ≤ count (text.take j))
    (hN : 0 < N) (h : N < count text) (h1 : count (text.take 1) ≤ N) :
    ∃ m, m ≤ text.length ∧
      truncate_to_limit count text (some N) false = text.take m ++ truncSuffix ∧
      count (text.take m) ≤ N ∧
      ∀ k, k ≤ text.length → m < k → N < count (text.take k) := by
  have htarget : resolveTarget (some N) = N := by
    show (if N = 0 then safe_max_tokens else N) = N
    rw [if_neg (by omega)]
  have hne : ¬ text.isEmpty := by
    intro he
    rw [List.isEmpty_iff] at he
    rw [he] at h h1
    simp only [List.take_nil] at h1
    rw [he] at hmono
    omega
  have hlen1 : 1 ≤ text.length := by
    cases text
    · simp at hne
    · simp
  unfold truncate_to_limit
  rw [if_neg hne]
  simp only [htarget]
  rw [if_neg (by omega), if_neg (by simp)]
  obtain ⟨m, _, hmlen, heq, hle, hmax⟩ :=
    bsearchBegin_spec count text N hmono (text.length + 1) 0 text.length text
      (by omega) (le_refl _) (by omega)
      (fun k hk hgt => absurd hk (by omega))
      (Or.inr ⟨rfl, h1, hlen1⟩)
  exact ⟨m, hmlen, by rw [heq], hle, hmax⟩

/-- Witness for `truncate_longest_prefix_amended` at the character-count
tokenizer, text `aaaaa`, limit 3. -/
theorem truncate_longest_prefix_amended_witness :
    ∃ m, m ≤ ("aaaaa".toList).length ∧
      truncate_to_limit List.length "aaaaa".toList (some 3) false =
        ("aaaaa".toList).take m ++ truncSuffix ∧
      List.length (("aaaaa".toList).take m) ≤ 3 ∧
      ∀ k, k ≤ ("aaaaa".toList).length → m < k →
        3 < List.length (("aaaaa".toList).take k) :=
  truncate_longest_prefix_amended List.length "aaaaa".toList 3
    (fun i j hij => by simp only [List.length_take]; omega)
    (by omega) (by decide) (by decide)

/-! ## Claims C6 and C10: the structural-injection gate -/

theorem leadsWith_iff (pat s : Str) :
    leadsWith pat s = true ↔ ∃ t, s = pat ++ t := by
  induction pat generalizing s with
  | nil =>
    simp only [leadsWith, List.nil_append]
    exact ⟨fun _ => ⟨s, rfl⟩, fun _ => trivial⟩
  | cons a as ih =>
    cases s with
    | nil =>
      simp [leadsWith]
    | cons b bs =>
      simp only [leadsWith, Bool.and_eq_true, beq_iff_eq, List.cons_append]
      constructor
      · rintro ⟨rfl, h⟩
        obtain ⟨t, rfl⟩ := (ih bs).mp h
        exact ⟨t, rfl⟩
      · rintro ⟨t, ht⟩
        injection ht with h1 h2
        exact ⟨h1.symm, (ih bs).mpr ⟨t, h2⟩⟩

theorem occursIn_iff (pat s : Str) :
    occursIn pat s = true ↔ ∃ a b, s = a ++ pat ++ b := by
  induction s with
  | nil =>
    simp only [occursIn, leadsWith_iff]
    constructor
    · rintro ⟨t, ht⟩
      exact ⟨[], t, by simpa using ht⟩
    · rintro ⟨a, b, h⟩
      rcases List.append_eq_nil.mp h.symm with ⟨h1, h2⟩
      rcases List.append_eq_nil.mp h1 with ⟨rfl, rfl⟩
      exact ⟨b, by simpa using h⟩
  | cons c rest ih =>
    simp only [occursIn, Bool.or_eq_true, leadsWith_iff, ih]
    constructor
    · rintro (⟨t, ht⟩ | ⟨a, b, rfl⟩)
      · exact ⟨[], t, by simpa using ht⟩
      · exact ⟨c :: a, b, rfl⟩
    · rintro ⟨a, b, h⟩
      cases a with
      | nil =>
        left
        exact ⟨b, by simpa using h⟩
      | cons x xs =>
        right
        injection h with h1 h2
        exact ⟨xs, b, h2⟩

theorem sanitize_input_ok (text : Str)
    (h : ∀ tok ∈ specialTokens, occursIn tok (text.map Char.toLower) = false) :
    sanitize_input text = .ok text := by
  unfold sanitize_input
  have hf : specialTokens.find?
      (fun tok => occursIn tok (text.map Char.toLower)) = none :=
    List.find?_eq_none.mpr fun x hx => by rw [h x hx]; exact Bool.false_ne_true
  rw [hf]

theorem sanitize_input_error (text : Str)
    (h : ∃ tok ∈ specialTokens, occursIn tok (text.map Char.toLower) = true) :
    ∃ tok ∈ specialTokens, sanitize_input text = .error (sanitizeErrMsg tok) := by
  unfold sanitize_input
  cases hf : specialTokens.find?
      (fun tok => occursIn tok (text.map Char.toLower)) with
  | none =>
    rw [List.find?_eq_none] at hf
    obtain ⟨t, ht, h2⟩ := h
    exact absurd h2 (by simpa using hf t ht)
  | some tok =>
    exact ⟨tok, List.mem_of_find?_eq_some hf, rfl⟩

/-- C6: any input containing a denylisted role-marker token
(case-insensitively) makes `summarize_stream` fail with the sanitizer
ValueError before any generation call is represented in the result, while
any input free of denylisted tokens (such as purely semantic injection
phrases) passes the gate unchanged. -/
theorem injection_gate (env : Env) (strategy : Str) (ratio : ℚ) (text : Str) :
    ((∃ tok ∈ specialTokens, occursIn tok (text.map Char.toLower) = true) →
      ∃ tok ∈ specialTokens,
        summarize_stream env strategy ratio text = .error (sanitizeErrMsg tok)) ∧
    ((∀ tok ∈ specialTokens, occursIn tok (text.map Char.toLower) = false) →
      sanitize_input text = .ok text) := by
  constructor
  · intro h
    obtain ⟨tok, hmem, herr⟩ := sanitize_input_error text h
    refine ⟨tok, hmem, ?_⟩
    unfold summarize_stream
    rw [herr]
  · exact sanitize_input_ok text

/-- External collaborators instantiated trivially for concrete runs. -/
def env0 : Env where
  split := fun _ _ t => [t]
  analysis := fun _ => []
  extract := fun _ _ => []
  llm := fun _ => []
  count := fun _ => 0

/-- Witness for `injection_gate`: an upper-case role marker is rejected,
a semantic injection phrase passes. -/
theorem injection_gate_witness :
    (∃ tok ∈ specialTokens,
      summarize_stream env0 "hierarchical".toList (1 / 5)
          "A <|IM_START|> marker".toList = .error (sanitizeErrMsg tok)) ∧
    sanitize_input "please ignore previous instructions".toList =
      .ok "please ignore previous instructions".toList := by
  constructor
  · exact (injection_gate env0 "hierarchical".toList (1 / 5)
      "A <|IM_START|> marker".toList).1 (by decide)
  · exact (injection_gate env0 "hierarchical".toList (1 / 5)
      "please ignore previous instructions".toList).2 (by decide)

/-- C10: the sanitizer raises exactly on the inputs that contain some
substring whose character-wise lower-casing is a denylisted token - the
match is case-insensitive, and nothing else triggers it. -/
theorem sanitize_case_insensitive_iff (text : Str) :
    (∃ e, sanitize_input text = .error e) ↔
      ∃ tok ∈ specialTokens, ∃ u a b,
        text = a ++ u ++ b ∧ u.map Char.toLower = tok := by
  constructor
  · rintro ⟨e, he⟩
    unfold sanitize_input at he
    cases hf : specialTokens.find?
        (fun tok => occursIn tok (text.map Char.toLower)) with
    | none =>
      rw [hf] at he
      cases he
    | some tok =>
      have hp : occursIn tok (text.map Char.toLower) = true := by
        have h2 := List.find?_some hf
        simpa using h2
      obtain ⟨a, b, hab⟩ := (occursIn_iff _ _).mp hp
      obtain ⟨l1, b2, hl1, hmapl1, hmapb⟩ := List.map_eq_append_iff.mp hab
      obtain ⟨a2, u, hau, hmapa, hmapu⟩ := List.map_eq_append_iff.mp hmapl1
      exact ⟨tok, List.mem_of_find?_eq_some hf, u, a2, b2,
        by rw [hl1, hau], hmapu⟩
  · rintro ⟨tok, hmem, u, a, b, rfl, hmap⟩
    have hp : occursIn tok ((a ++ u ++ b).map Char.toLower) = true := by
      apply (occursIn_iff _ _).mpr
      exact ⟨a.map Char.toLower, b.map Char.toLower, by
        rw [List.map_append, List.map_append, hmap]⟩
    have hsome : (specialTokens.find?
        (fun tok => occursIn tok ((a ++ u ++ b).map Char.toLower))).isSome := by
      rw [List.find?_isSome]
      exact ⟨tok, hmem, hp⟩
    obtain ⟨tok2, hf⟩ := Option.isSome_iff_exists.mp hsome
    refine ⟨sanitizeErrMsg tok2, ?_⟩
    unfold sanitize_input
    rw [hf]

/-! ## Claim C3: short inputs and strategy dispatch -/

/-- C3 amended: for a sanitized, untruncated input below the hierarchical
chunk-size threshold, the `simple` and `hierarchical` strategies (and any
unknown strategy, which falls back to hierarchical) execute the Simple
path - one direct generation call on the text - while the `detailed`
strategy runs its own extractive map and single reduce call; in every
case exactly one generation call is issued. -/
theorem short_input_single_call (env : Env) (strategy : Str) (ratio : ℚ)
    (text : Str)
    (hsan : ∀ tok ∈ specialTokens, occursIn tok (text.map Char.toLower) = false)
    (hcnt : env.count text ≤ safe_max_tokens)
    (hlen : text.length < 100000) :
    (strategy ≠ "detailed".toList →
      summarize_stream env strategy ratio text =
        .ok (simpleCalls text (calculate_target_words ratio text))) ∧
    (∃ c, summarize_stream env strategy ratio text = .ok [c]) := by
  have hok := sanitize_input_ok text hsan
  have hstream : summarize_stream env strategy ratio text =
      .ok (if strategy = "simple".toList then
          simpleCalls text (calculate_target_words ratio text)
        else if strategy = "hierarchical".toList then
          hierarchicalCalls env text (calculate_target_words ratio text)
        else if strategy = "detailed".toList then
          detailedCalls env text (calculate_target_words ratio text)
        else hierarchicalCalls env text (calculate_target_words ratio text)) := by
    unfold summarize_stream
    rw [hok]
    dsimp only
    rw [if_neg (not_lt.mpr hcnt)]
  have hhier : hierarchicalCalls env text (calculate_target_words ratio text) =
      simpleCalls text (calculate_target_words ratio text) := by
    unfold hierarchicalCalls
    rw [if_pos hlen]
  constructor
  · intro hne
    rw [hstream]
    by_cases h1 : strategy = "simple".toList
    · rw [if_pos h1]
    · rw [if_neg h1]
      by_cases h2 : strategy = "hierarchical".toList
      · rw [if_pos h2, hhier]
      · rw [if_neg h2, if_neg hne, hhier]
  · by_cases h3 : strategy = "detailed".toList
    · refine ⟨(Prompt.detailedReduce
        (List.intercalate "\n".toList (mapExtractSentences env
          (split_into_chunks env.split text 100000 1000))),
        calculate_target_words ratio text), ?_⟩
      rw [hstream]
      by_cases h1 : strategy = "simple".toList
      · rw [h1] at h3
        exact absurd h3 (by decide)
      · rw [if_neg h1]
        by_cases h2 : strategy = "hierarchical".toList
        · rw [h2] at h3
          exact absurd h3 (by decide)
        · rw [if_neg h2, if_pos h3]
          rfl
    · refine ⟨(Prompt.simple (text.take 10000), calculate_target_words ratio text), ?_⟩
      rw [hstream]
      by_cases h1 : strategy = "simple".toList
      · rw [if_pos h1]
        rfl
      · rw [if_neg h1]
        by_cases h2 : strategy = "hierarchical".toList
        · rw [if_pos h2, hhier]
          rfl
        · rw [if_neg h2, if_neg h3, hhier]
          rfl

/-- The 50-character input of the short-input scenario. -/
def shortText : Str := List.replicate 50 'a'

/-- C3 counterexample: with the `detailed` strategy requested, a
50-character input is not processed by the Simple path - the single
generation call carries the detailed reduce prompt over the extracted
content, not the Simple prompt over the raw text. -/
theorem detailed_short_input_not_simple :
    summarize_stream env0 "detailed".toList (1 / 5) shortText =
      .ok [(Prompt.detailedReduce [], 50)] ∧
    simpleCalls shortText (calculate_target_words (1 / 5) shortText) =
      [(Prompt.simple shortText, 50)] ∧
    [((Prompt.detailedReduce [] : Prompt), 50)] ≠
      simpleCalls shortText (calculate_target_words (1 / 5) shortText) := by
  have htw : calculate_target_words (1 / 5) shortText = 50 := by
    unfold calculate_target_words pyInt
    rw [(by decide : count_words shortText = 1)]
    norm_num
  have hsan : sanitize_input shortText = .ok shortText :=
    sanitize_input_ok shortText (by decide)
  refine ⟨?_, ?_, ?_⟩
  · unfold summarize_stream
    rw [hsan]
    dsimp only
    rw [if_neg (show ¬ safe_max_tokens < env0.count shortText by decide)]
    rw [htw]
    rw [if_neg (by decide : ¬ ("detailed".toList : Str) = "simple".toList)]
    rw [if_neg (by decide : ¬ ("detailed".toList : Str) = "hierarchical".toList)]
    rw [if_pos rfl]
    exact congrArg Except.ok (by decide)
  · rw [htw]
    decide
  · rw [htw]
    decide

/-- Witness for `short_input_single_call`: the hierarchical request on a
50-character input issues the Simple call; the detailed request issues
exactly one call. -/
theorem short_input_single_call_witness :
    summarize_stream env0 "hierarchical".toList (1 / 5) shortText =
      .ok (simpleCalls shortText (calculate_target_words (1 / 5) shortText)) ∧
    ∃ c, summarize_stream env0 "detailed".toList (1 / 5) shortText = .ok [c] := by
  constructor
  · exact (short_input_single_call env0 "hierarchical".toList (1 / 5) shortText
      (by decide) (by decide) (by decide)).1 (by decide)
  · exact (short_input_single_call env0 "detailed".toList (1 / 5) shortText
      (by decide) (by decide) (by decide)).2

/-! ## Claims C4 and C5: ranking, selection order and threshold filtering -/

theorem rank_perm (analysis : Str → List ℚ) (chunks : List Str) :
    (rank_chunks_by_importance analysis chunks).Perm
      (chunks.enum.map fun p => (p.1, p.2, chunkScore analysis p.2)) :=
  sortDescBy_perm _ _

theorem rank_sorted (analysis : Str → List ℚ) (chunks : List Str) :
    List.Sorted (fun a b : Nat × Str × ℚ => b.2.2 ≤ a.2.2)
      (rank_chunks_by_importance analysis chunks) :=
  sortDescBy_sorted (fun t : Nat × Str × ℚ => t.2.2) _

theorem rank_length (analysis : Str → List ℚ) (chunks : List Str) :
    (rank_chunks_by_importance analysis chunks).length = chunks.length := by
  unfold rank_chunks_by_importance
  rw [sortDescBy_length, List.length_map, List.enum_length]

theorem rank_mem {analysis : Str → List ℚ} {chunks : List Str}
    {t : Nat × Str × ℚ} (ht : t ∈ rank_chunks_by_importance analysis chunks) :
    t.2.2 = chunkScore analysis t.2.1 ∧ t.2.1 ∈ chunks := by
  have h2 : t ∈ chunks.enum.map (fun p => (p.1, p.2, chunkScore analysis p.2)) :=
    (rank_perm analysis chunks).mem_iff.mp ht
  obtain ⟨p, hp, rfl⟩ := List.mem_map.mp h2
  exact ⟨rfl, List.getElem?_mem (List.mem_enum_iff_getElem?.mp hp)⟩

theorem exists_rank_entry {analysis : Str → List ℚ} {chunks : List Str}
    {c : Str} (hc : c ∈ chunks) :
    ∃ t ∈ rank_chunks_by_importance analysis chunks,
      t.2.1 = c ∧ t.2.2 = chunkScore analysis c := by
  obtain ⟨i, hilt, hic⟩ := List.mem_iff_getElem.mp hc
  have henum : ((i, c) : Nat × Str) ∈ chunks.enum := by
    rw [List.mem_enum_iff_getElem?]
    simp only [List.getElem?_eq_getElem hilt]
    exact congrArg some hic
  have hmap : ((i, c, chunkScore analysis c) : Nat × Str × ℚ) ∈
      chunks.enum.map (fun p => (p.1, p.2, chunkScore analysis p.2)) :=
    List.mem_map.mpr ⟨(i, c), henum, rfl⟩
  exact ⟨(i, c, chunkScore analysis c),
    (rank_perm analysis chunks).mem_iff.mpr hmap, rfl, rfl⟩

theorem rank_map_chunk_perm (analysis : Str → List ℚ) (chunks : List Str) :
    ((rank_chunks_by_importance analysis chunks).map fun t => t.2.1).Perm chunks := by
  have h1 := (rank_perm analysis chunks).map (fun t : Nat × Str × ℚ => t.2.1)
  rw [List.map_map] at h1
  have h2 : ((fun t : Nat × Str × ℚ => t.2.1) ∘
      (fun p : Nat × Str => (p.1, p.2, chunkScore analysis p.2))) =
      fun p : Nat × Str => p.2 := rfl
  rw [h2, List.enum_map_snd] at h1
  exact h1

/-- C4 amended: `rank_chunks_by_importance` returns the scored chunks in
score-descending order (a permutation of the enumerated input), and the
hierarchical strategy processes - and therefore feeds to the reduce step -
the selected chunks in that ranked order, not re-sorted by original
index; only the unfiltered path (3 or fewer chunks, or relevance
filtering disabled) keeps original document order. -/
theorem hier_assembly_order (analysis : Str → List ℚ) (chunks : List Str) :
    List.Sorted (fun a b : Nat × Str × ℚ => b.2.2 ≤ a.2.2)
      (rank_chunks_by_importance analysis chunks) ∧
    (rank_chunks_by_importance analysis chunks).Perm
      (chunks.enum.map fun p => (p.1, p.2, chunkScore analysis p.2)) ∧
    (chunks.length ≤ 3 → hierChunksToProcess analysis chunks = chunks) ∧
    (3 < chunks.length →
      hierChunksToProcess analysis chunks =
        ((rank_chunks_by_importance analysis chunks).take
          (priorityCount chunks.length)).map fun t => t.2.1) := by
  refine ⟨rank_sorted analysis chunks, rank_perm analysis chunks, ?_, ?_⟩
  · intro h
    unfold hierChunksToProcess
    rw [if_neg (by omega)]
  · intro h
    unfold hierChunksToProcess
    rw [if_pos h]

/-- Four chunks whose importance scores increase with position. -/
def chunks4 : List Str :=
  ["a".toList, "bb".toList, "cccc".toList, "dddddddd".toList]

/-- A concrete stand-in for the external per-chunk analysis: one sentence
score equal to the chunk length. -/
def lenScore : Str → List ℚ := fun c => [(c.length : ℚ)]

/-- C4 counterexample: with relevance filtering active (4 chunks), the
chunks fed to the map phase and hence to the reduce step are in ranked
order `[3, 2]` - not re-assembled by original index, which would require
the ascending order `[2, 3]`. -/
theorem filtered_order_not_original_index :
    hierSelectedIndices lenScore chunks4 = [3, 2] ∧
    ¬ List.Sorted (· ≤ ·) (hierSelectedIndices lenScore chunks4) := by
  have h : hierSelectedIndices lenScore chunks4 = [3, 2] := by
    norm_num [hierSelectedIndices, chunks4, lenScore, rank_chunks_by_importance,
      chunkScore, sortDescBy, insertDescBy, priorityCount, pyInt, List.enum,
      List.enumFrom]
  refine ⟨h, ?_⟩
  rw [h]
  intro hs
  rw [List.sorted_cons] at hs
  have := hs.1 2 (by simp)
  omega

/-- Witness for `hier_assembly_order`: a single chunk passes unfiltered;
four chunks are selected from the ranked order. -/
theorem hier_assembly_order_witness :
    hierChunksToProcess lenScore ["a".toList] = ["a".toList] ∧
    hierChunksToProcess lenScore chunks4 =
      ((rank_chunks_by_importance lenScore chunks4).take
        (priorityCount chunks4.length)).map (fun t => t.2.1) := by
  constructor
  · exact (hier_assembly_order lenScore ["a".toList]).2.2.1 (by decide)
  · exact (hier_assembly_order lenScore chunks4).2.2.2 (by decide)

/-- C5: threshold filtering over a non-empty chunk list with nonnegative
importance scores: threshold 0.0 keeps every chunk (a permutation of the
input); a threshold above 1 still returns at least one chunk, namely the
single top-ranked one when some score is nonzero; and when every score is
zero the input list is returned unchanged for any threshold. -/
theorem filter_by_threshold_guarantees (analysis : Str → List ℚ)
    (chunks : List Str) (hne : chunks ≠ [])
    (hnn : ∀ c ∈ chunks, 0 ≤ chunkScore analysis c) :
    (filter_by_threshold analysis chunks 0).Perm chunks ∧
    filter_by_threshold analysis chunks (101 / 100) ≠ [] ∧
    ((∃ c ∈ chunks, chunkScore analysis c ≠ 0) →
      ∃ t ∈ rank_chunks_by_importance analysis chunks,
        filter_by_threshold analysis chunks (101 / 100) = [t.2.1] ∧
        ∀ u ∈ rank_chunks_by_importance analysis chunks, u.2.2 ≤ t.2.2) ∧
    ((∀ c ∈ chunks, chunkScore analysis c = 0) →
      ∀ threshold, filter_by_threshold analysis chunks threshold = chunks) := by
  rcases hr : rank_chunks_by_importance analysis chunks with _ | ⟨r, rs⟩
  · exfalso
    have := rank_length analysis chunks
    rw [hr] at this
    exact hne (List.length_eq_zero.mp this.symm)
  · have hunf : ∀ th : ℚ, filter_by_threshold analysis chunks th =
        (if (rs.map fun t => t.2.2).foldl max r.2.2 = 0 then chunks
        else
          if ((((r :: rs).filter fun t =>
              th ≤ t.2.2 / (rs.map fun t => t.2.2).foldl max r.2.2).map
            fun t => t.2.1)).isEmpty then [r.2.1]
          else (((r :: rs).filter fun t =>
              th ≤ t.2.2 / (rs.map fun t => t.2.2).foldl max r.2.2).map
            fun t => t.2.1)) := by
      intro th
      unfold filter_by_threshold
      rw [hr]
    have hmemr : r ∈ rank_chunks_by_importance analysis chunks := by
      rw [hr]
      exact List.mem_cons_self r rs
    have hscore_le : ∀ t ∈ r :: rs,
        t.2.2 ≤ (rs.map fun t => t.2.2).foldl max r.2.2 := by
      intro t ht
      rcases List.mem_cons.mp ht with rfl | ht
      · exact le_foldl_max _ _
      · exact mem_le_foldl_max _ _ (List.mem_map_of_mem _ ht)
    have hr_nonneg : 0 ≤ r.2.2 := by
      obtain ⟨hs, hm⟩ := rank_mem hmemr
      rw [hs]
      exact hnn _ hm
    have hM_nonneg : 0 ≤ (rs.map fun t => t.2.2).foldl max r.2.2 :=
      le_trans hr_nonneg (le_foldl_max _ _)
    have hall_le : ∀ t ∈ rank_chunks_by_importance analysis chunks,
        t.2.2 ≤ (rs.map fun t => t.2.2).foldl max r.2.2 := by
      rw [hr]
      exact hscore_le
    have hfilter_empty : (rs.map fun t => t.2.2).foldl max r.2.2 ≠ 0 →
        ((r :: rs).filter fun t =>
          (101 / 100 : ℚ) ≤ t.2.2 / (rs.map fun t => t.2.2).foldl max r.2.2) = [] := by
      intro hM
      have hMpos : 0 < (rs.map fun t => t.2.2).foldl max r.2.2 :=
        lt_of_le_of_ne hM_nonneg (Ne.symm hM)
      apply List.filter_eq_nil_iff.mpr
      intro t ht
      apply (Bool.not_eq_true _).mpr
      apply decide_eq_false
      intro habs
      have h1 : t.2.2 / (rs.map fun t => t.2.2).foldl max r.2.2 ≤ 1 :=
        (div_le_one hMpos).mpr (hscore_le t ht)
      linarith
    have hzeroM : (∀ c ∈ chunks, chunkScore analysis c = 0) →
        (rs.map fun t => t.2.2).foldl max r.2.2 = 0 := by
      intro hz
      have hub : ∀ t ∈ r :: rs, t.2.2 ≤ (0 : ℚ) := by
        intro t ht
        rw [← hr] at ht
        obtain ⟨hs, hm⟩ := rank_mem ht
        rw [hs, hz _ hm]
      refine le_antisymm ?_ hM_nonneg
      exact foldl_max_le _ _ (hub r (List.mem_cons_self r rs))
        fun x hx => by
          obtain ⟨t, ht, rfl⟩ := List.mem_map.mp hx
          exact hub t (List.mem_cons_of_mem r ht)
    refine ⟨?_, ?_, ?_, ?_⟩
    · -- threshold 0 keeps every chunk
      rw [hunf 0]
      by_cases hM : (rs.map fun t => t.2.2).foldl max r.2.2 = 0
      · rw [if_pos hM]
      · rw [if_neg hM]
        have hMpos : 0 < (rs.map fun t => t.2.2).foldl max r.2.2 :=
          lt_of_le_of_ne hM_nonneg (Ne.symm hM)
        have hfil : ((r :: rs).filter fun t =>
            (0 : ℚ) ≤ t.2.2 / (rs.map fun t => t.2.2).foldl max r.2.2) =
            r :: rs := by
          apply List.filter_eq_self.mpr
          intro t ht
          apply decide_eq_true
          apply div_nonneg ?_ (le_of_lt hMpos)
          rw [← hr] at ht
          obtain ⟨hs, hm⟩ := rank_mem ht
          rw [hs]
          exact hnn _ hm
        rw [hfil]
        rw [if_neg (show ¬ ((((r :: rs).map fun t => t.2.1)).isEmpty = true) by simp)]
        rw [← hr]
        exact rank_map_chunk_perm analysis chunks
    · -- threshold 1.01 never returns the empty list
      rw [hunf (101 / 100)]
      by_cases hM : (rs.map fun t => t.2.2).foldl max r.2.2 = 0
      · rw [if_pos hM]
        exact hne
      · rw [if_neg hM, hfilter_empty hM]
        intro habs
        cases habs
    · -- threshold 1.01 keeps exactly the top-ranked chunk
      rintro ⟨c, hc, hcne⟩
      have hMne : (rs.map fun t => t.2.2).foldl max r.2.2 ≠ 0 := by
        obtain ⟨t, ht, ht1, ht2⟩ := @exists_rank_entry analysis chunks c hc
        intro h0
        apply hcne
        have hle := hall_le t ht
        rw [h0, ht2] at hle
        exact le_antisymm hle (hnn c hc)
      refine ⟨r, List.mem_cons_self r rs, ?_, ?_⟩
      · rw [hunf (101 / 100), if_neg hMne, hfilter_empty hMne]
        rfl
      · intro u hu
        have hs := rank_sorted analysis chunks
        rw [hr, List.sorted_cons] at hs
        rcases List.mem_cons.mp hu with rfl | hu
        · exact le_refl _
        · exact hs.1 u hu
    · -- all scores zero: input returned unchanged
      intro hz threshold
      rw [hunf threshold, if_pos (hzeroM hz)]

/-- Witness for `filter_by_threshold_guarantees` on two chunks scored by
length. -/
theorem filter_by_threshold_guarantees_witness :
    (filter_by_threshold lenScore ["a".toList, "bb".toList] 0).Perm
      ["a".toList, "bb".toList] ∧
    filter_by_threshold lenScore ["a".toList, "bb".toList] (101 / 100) ≠ [] := by
  have h := filter_by_threshold_guarantees lenScore ["a".toList, "bb".toList]
    (by decide) ?_
  · exact ⟨h.1, h.2.1⟩
  · intro c _
    unfold chunkScore lenScore
    dsimp only
    rw [if_neg (by simp)]
    simp only [List.sum_cons, List.sum_nil, List.length_cons, List.length_nil]
    positivity

end SmartSummary
